import Mathlib

/-!
Shallow embedding of the rust-scan repository core and verification of its
specification's claims.

The embedding covers:
* `src/src/database.rs` — the record codec (`DatabaseResult.encode` /
  `DatabaseResult.decode`), the number join/split helpers (`join_nums` /
  `split_nums`), and the RocksDB-backed result store (`save_rows`,
  `fetch_row`, `get_row_by_host`, `search_substring_in_column`,
  `get_rows_by_port`).
* `src/src/port_scan/tcp_scan.rs` — the listener-thread update of the shared
  results map, the final output shaping of `tcp_scan`, and the transmission
  error handling of `send_tcp_packet`.
* `src/src/online_scan/ping_scanner.rs` — the sender thread's
  identifier-assignment and registration/transmission order.

Modelling conventions:
* Rust `String` / `&str` values are modelled as `List Char` (`RString`).
  A Rust `String` is always valid UTF-8, so the `as_bytes` /
  `from_utf8_lossy` pair on the store's write/read path is the identity and
  the store columns hold `RString` values directly.  The codec claims are
  about the byte-level layout, so for those the UTF-8 encoding
  (`utf8Encode`) and the lossy decoding (`utf8LossyDecode`) are modelled
  explicitly over byte lists (`List Nat`, each entry one byte).
* Rust `i32` is modelled as `Int`; `IsI32` states membership in the i32
  range.  Machine-width conversions (`i as u16`, `port as u16`) are modelled
  with explicit `% 65536`.
* RocksDB column families are ordered maps iterated in ascending key order;
  they are modelled as association lists kept sorted by the lexicographic
  order `strLt` via `putSorted`.  `put` overwrites, as in RocksDB.
* Stateful/threaded code is modelled by explicit folds over the stream of
  events the thread consumes (received packets for the TCP listener,
  successive send outcomes for `send_tcp_packet`) or by the trace of events
  the thread emits (`senderTrace` for the ping sender).
-/

/-- Rust `String` / `&str`, modelled as its list of characters. -/
abbrev RString := List Char

/-- Lexicographic order on strings; RocksDB iterates keys in this order
(byte order, which coincides with character order on the ASCII keys used
here). -/
def strLt : RString → RString → Bool
  | [], [] => false
  | [], _ :: _ => true
  | _ :: _, [] => false
  | a :: as, b :: bs => decide (a < b) || (decide (a = b) && strLt as bs)

/-- Rust `str::contains(&str)`: substring containment.  The empty needle is
contained in every string, as in Rust. -/
def containsSubstr (hay needle : RString) : Bool :=
  match hay with
  | [] => needle.isEmpty
  | c :: t => needle.isPrefixOf (c :: t) || containsSubstr t needle

/-- Worker for `splitOnChar`: `acc` holds the (reversed) characters of the
piece currently being accumulated. -/
def splitOnCharAux (c : Char) : List Char → List Char → List (List Char)
  | [], acc => [acc.reverse]
  | x :: xs, acc =>
    if x = c then acc.reverse :: splitOnCharAux c xs []
    else splitOnCharAux c xs (x :: acc)

/-- Rust `str::split(sep)` for a one-character separator.  Every call site of
`split_nums` in the repository passes the one-character separator `","`, so
the separator parameter is modelled as a single `Char`. -/
def splitOnChar (c : Char) (l : List Char) : List (List Char) :=
  splitOnCharAux c l []

/-- Rust `Vec::join(sep)` for a one-character separator (see `splitOnChar`
for why the separator is a single `Char`). -/
def joinChar (sep : Char) : List (List Char) → List Char
  | [] => []
  | [x] => x
  | x :: y :: t => x ++ sep :: joinChar sep (y :: t)

/-- ASCII decimal digit test. -/
def isDigit (c : Char) : Bool :=
  decide (48 ≤ c.toNat) && decide (c.toNat ≤ 57)

/-- Numeric value of a list of decimal digit characters (most significant
first), as accumulated left to right by Rust's integer parsing. -/
def digitsToNat (l : List Char) : Nat :=
  l.foldl (fun a c => a * 10 + (c.toNat - 48)) 0

/-- Fuel-indexed decimal printing of a `Nat` (most significant digit first).
Structural recursion on the fuel keeps the definition kernel-reducible; the
fuel-exhausted branch is unreachable whenever `n ≤ fuel`. -/
def natToDigitsAux : Nat → Nat → List Char
  | 0, n => [Char.ofNat (48 + n % 10)]
  | fuel + 1, n =>
    if n < 10 then [Char.ofNat (48 + n)]
    else natToDigitsAux fuel (n / 10) ++ [Char.ofNat (48 + n % 10)]

/-- Decimal digits of a `Nat`, as produced by Rust's `to_string` (no leading
zeros, `"0"` for zero). -/
def natToDigits (n : Nat) : List Char :=
  natToDigitsAux n n

/-- Rust `i32::to_string()`: decimal, with a leading `-` for negatives. -/
def i32ToString (n : Int) : RString :=
  if n < 0 then '-' :: natToDigits n.natAbs else natToDigits n.toNat

/-- The i32 range. -/
abbrev IsI32 (n : Int) : Prop :=
  -(2 ^ 31) ≤ n ∧ n < 2 ^ 31

/-- Digit-and-range part of Rust `str::parse::<i32>()`: the characters after
the optional sign must be one or more ASCII digits and the resulting value
must fit in `i32`, otherwise parsing errs (`none`). -/
def parseDigits (neg : Bool) (ds : RString) : Option Int :=
  if ds.isEmpty || !(ds.all isDigit) then none
  else
    let m : Int := (digitsToNat ds : Nat)
    let v : Int := if neg then -m else m
    if -(2 ^ 31) ≤ v ∧ v < 2 ^ 31 then some v else none

/-- Rust `str::parse::<i32>()`: optional `+`/`-` sign followed by decimal
digits; rejects empty input, stray characters and out-of-range values. -/
def parse_i32 (s : RString) : Option Int :=
  match s with
  | [] => none
  | c :: rest =>
    if c = '-' then parseDigits true rest
    else if c = '+' then parseDigits false rest
    else parseDigits false (c :: rest)

/-- `join_nums` from `database.rs` (lines 113-122): map each number to its
decimal string and join with the separator. -/
def join_nums (nums : List Int) (sep : Char) : RString :=
  joinChar sep (nums.map i32ToString)

/-- `split_nums` from `database.rs` (lines 124-139): the empty string yields
the empty vector; otherwise split on the separator and parse each piece as
`i32`, with unparsable pieces becoming `0`. -/
def split_nums (str : RString) (sep : Char) : List Int :=
  if str = [] then []
  else (splitOnChar sep str).map (fun n =>
    match parse_i32 n with
    | some num => num
    | none => 0)

/-- UTF-8 encoding of one character (1-4 bytes). -/
def utf8EncodeChar (c : Char) : List Nat :=
  let n := c.toNat
  if n < 128 then [n]
  else if n < 2048 then [192 + n / 64, 128 + n % 64]
  else if n < 65536 then [224 + n / 4096, 128 + n / 64 % 64, 128 + n % 64]
  else [240 + n / 262144, 128 + n / 4096 % 64, 128 + n / 64 % 64, 128 + n % 64]

/-- Rust `str::as_bytes()`: the UTF-8 byte sequence of a string. -/
def utf8Encode (s : RString) : List Nat :=
  (s.map utf8EncodeChar).flatten

/-- UTF-8 continuation byte test (`0x80..=0xBF`). -/
def isCont (b : Nat) : Bool :=
  decide (128 ≤ b) && decide (b < 192)

/-- U+FFFD, the Unicode replacement character. -/
def replacementChar : Char := Char.ofNat 65533

/-- Fuel-indexed worker for `utf8LossyDecode`; each step consumes at least
one byte, so fuel equal to the list length suffices and the fuel-exhausted
branch is unreachable. -/
def utf8LossyDecodeAux : Nat → List Nat → List Char
  | 0, _ => []
  | _ + 1, [] => []
  | fuel + 1, b0 :: r0 =>
    if b0 < 128 then Char.ofNat b0 :: utf8LossyDecodeAux fuel r0
    else if b0 < 194 then replacementChar :: utf8LossyDecodeAux fuel r0
    else if b0 < 224 then
      match r0 with
      | [] => [replacementChar]
      | b1 :: r1 =>
        if isCont b1 then
          Char.ofNat ((b0 - 192) * 64 + (b1 - 128)) :: utf8LossyDecodeAux fuel r1
        else replacementChar :: utf8LossyDecodeAux fuel r0
    else if b0 < 240 then
      match r0 with
      | b1 :: b2 :: r2 =>
        if isCont b1 && isCont b2 && !(b0 == 224 && decide (b1 < 160))
            && !(b0 == 237 && decide (160 ≤ b1)) then
          Char.ofNat ((b0 - 224) * 4096 + (b1 - 128) * 64 + (b2 - 128)) ::
            utf8LossyDecodeAux fuel r2
        else replacementChar :: utf8LossyDecodeAux fuel r0
      | _ => [replacementChar]
    else if b0 < 245 then
      match r0 with
      | b1 :: b2 :: b3 :: r3 =>
        if isCont b1 && isCont b2 && isCont b3 && !(b0 == 240 && decide (b1 < 144))
            && !(b0 == 244 && decide (144 ≤ b1)) then
          Char.ofNat ((b0 - 240) * 262144 + (b1 - 128) * 4096 + (b2 - 128) * 64
              + (b3 - 128)) :: utf8LossyDecodeAux fuel r3
        else replacementChar :: utf8LossyDecodeAux fuel r0
      | _ => [replacementChar]
    else replacementChar :: utf8LossyDecodeAux fuel r0

/-- Rust `String::from_utf8_lossy`: decodes valid UTF-8 sequences exactly
(including the overlong and surrogate checks) and substitutes U+FFFD for
invalid bytes.  The exact span of each replacement on invalid input is
approximated (Rust replaces per maximal invalid subpart); every value this
development decodes is valid UTF-8, where the two agree. -/
def utf8LossyDecode (l : List Nat) : List Char :=
  utf8LossyDecodeAux l.length l

/-- Little-endian byte serialization of a `u32` (Rust
`(x as u32).to_le_bytes()`). -/
def u32le (n : Nat) : List Nat :=
  [n % 256, n / 256 % 256, n / 65536 % 256, n / 16777216 % 256]

/-- Little-endian `u32` read of `data[pos..pos+4]` (callers bounds-check
first, as the source does). -/
def readU32le (data : List Nat) (pos : Nat) : Nat :=
  data.getD pos 0 + data.getD (pos + 1) 0 * 256 + data.getD (pos + 2) 0 * 65536
    + data.getD (pos + 3) 0 * 16777216

/-- `DatabaseResult` from `database.rs` (lines 20-25): row id, `i32` port
array, and the services blob. -/
structure DatabaseResult where
  id : RString
  ports : List Int
  services : RString
deriving DecidableEq

/-- `DatabaseResult::ports_to_string` (line 108-110): comma-join the
ports. -/
def DatabaseResult.ports_to_string (r : DatabaseResult) : RString :=
  join_nums r.ports ','

/-- `DatabaseResult::encode` (lines 41-53): little-endian `u32` count (always
2), then for each of `[ports_to_string, services]` a little-endian `u32`
byte length followed by the UTF-8 bytes. -/
def DatabaseResult.encode (r : DatabaseResult) : List Nat :=
  let values := [r.ports_to_string, r.services]
  u32le values.length ++
    (values.map (fun value => u32le (utf8Encode value).length ++ utf8Encode value)).flatten

/-- The value-reading loop of `DatabaseResult::decode` (lines 72-92): read
`count` length-prefixed values starting at `pos`, failing (`none`) when a
4-byte length prefix or a value body overruns the buffer. -/
def decodeValues (data : List Nat) : Nat → Nat → Option (List RString)
  | _, 0 => some []
  | pos, count + 1 =>
    if pos + 4 > data.length then none
    else
      let value_len := readU32le data pos
      if pos + 4 + value_len > data.length then none
      else
        match decodeValues data (pos + 4 + value_len) count with
        | none => none
        | some vs => some (utf8LossyDecode ((data.drop (pos + 4)).take value_len) :: vs)

/-- Outcome of `DatabaseResult::decode`: a decoded record, `None`
(`absent`), or a Rust panic (`crash`, from an out-of-bounds `Vec` index). -/
inductive DecodeResult where
  | crash : DecodeResult
  | absent : DecodeResult
  | ok : DatabaseResult → DecodeResult
deriving DecidableEq

/-- `DatabaseResult::decode` (lines 55-107).  The guards mirror the source:
buffers shorter than 8 bytes are rejected, the `pos + 4 > data.len()` check
at lines 63-65 is kept (it is dead after the first guard), the value loop is
`decodeValues`, and the final record construction keeps the source's literal
`if 1 > 0` / `if 1 > 1` conditions.  When the decoded value list is empty the
source evaluates `values[0]` inside the `1 > 0` branch, which panics
(`crash`). -/
def DatabaseResult.decode (key : RString) (data : List Nat) : DecodeResult :=
  if data.length < 8 then .absent
  else if 0 + 4 > data.length then .absent
  else
    let values_count := readU32le data 0
    match decodeValues data 4 values_count with
    | none => .absent
    | some values =>
      match values with
      | [] => .crash
      | v0 :: _ =>
        .ok { id := key
              ports := if 1 > 0 then split_nums v0 ',' else []
              services := if 1 > 1 then values.getD 1 [] else [] }

/-- One RocksDB column family: an association list kept sorted by `strLt` on
the keys, matching RocksDB's ordered iteration. -/
abbrev ColumnFamily := List (RString × RString)

/-- Point lookup (`db.get_cf`). -/
def cfGet (cf : ColumnFamily) (k : RString) : Option RString :=
  match cf with
  | [] => none
  | (k', v') :: t => if k = k' then some v' else cfGet t k

/-- Keyed insert-or-overwrite (`batch.put_cf` / `db.put_cf`), preserving
ascending key order. -/
def putSorted (k v : RString) : ColumnFamily → ColumnFamily
  | [] => [(k, v)]
  | (k', v') :: t =>
    if strLt k k' then (k, v) :: (k', v') :: t
    else if k = k' then (k, v) :: t
    else (k', v') :: putSorted k v t

/-- The three column families of `ResultDatabase` (`default`, `ports`,
`services`). -/
structure StoreState where
  default_cf : ColumnFamily
  ports_cf : ColumnFamily
  services_cf : ColumnFamily
deriving DecidableEq

/-- A freshly created store. -/
def emptyStore : StoreState :=
  { default_cf := [], ports_cf := [], services_cf := [] }

/-- The per-row writes of `ResultDatabase::save_rows` (lines 260-272): an
empty presence marker in `default`, the comma-joined ports in `ports`, and
the services blob in `services`, all keyed by the row id. -/
def putRow (s : StoreState) (row : DatabaseResult) : StoreState :=
  { default_cf := putSorted row.id [] s.default_cf
    ports_cf := putSorted row.id row.ports_to_string s.ports_cf
    services_cf := putSorted row.id row.services s.services_cf }

/-- `ResultDatabase::save_rows` (lines 231-292).  The source chunks the rows
into write batches of 1000 and commits the batches sequentially in input
order, which applies the per-row puts in input order; the chunking is
therefore modelled as a left fold.  The open/flush plumbing and the elapsed
time report are not modelled. -/
def save_rows (s : StoreState) (string_rows : List DatabaseResult) : StoreState :=
  string_rows.foldl putRow s

/-- `ResultDatabase::row_to_string` (lines 377-383): the stored value, or the
empty string when the key is absent.  Stored values are always valid UTF-8,
so the `from_utf8_lossy` round trip is the identity. -/
def row_to_string (cf : ColumnFamily) (row_id : RString) : RString :=
  (cfGet cf row_id).getD []

/-- `ResultDatabase::fetch_row` (lines 366-375): presence check in `default`,
then materialize the record from the `ports` and `services` columns. -/
def fetch_row (s : StoreState) (row_id : RString) : Option DatabaseResult :=
  match cfGet s.default_cf row_id with
  | some _ =>
      some { id := row_id
             ports := split_nums (row_to_string s.ports_cf row_id) ','
             services := row_to_string s.services_cf row_id }
  | none => none

/-- `ResultDatabase::get_row_by_host` (lines 294-308).  The store-open
failure path (which collapses to `None`) is not modelled. -/
def get_row_by_host (s : StoreState) (row : RString) : Option DatabaseResult :=
  fetch_row s row

/-- `ResultDatabase::search_substring_in_column` (lines 326-364): iterate the
column family in key order, keep the keys whose value contains the substring,
and resolve each kept key through `fetch_row`.  Stored keys and values are
valid UTF-8, so the `from_utf8` checks of the source always succeed. -/
def search_substring_in_column (s : StoreState) (cf : ColumnFamily)
    (substring : RString) : List DatabaseResult :=
  cf.filterMap (fun kv =>
    if containsSubstr kv.2 substring then fetch_row s kv.1 else none)

/-- `ResultDatabase::get_rows_by_port` (lines 310-316): substring scan over
the `ports` column family. -/
def get_rows_by_port (s : StoreState) (port : RString) : List DatabaseResult :=
  search_substring_in_column s s.ports_cf port

/-- Strict key order between two column-family entries. -/
def pairKeyLt (x y : RString × RString) : Prop :=
  strLt x.1 y.1 = true

/-- Representation invariant of the store: every column family is strictly
sorted by key (RocksDB iterates each column family in ascending key order
with unique keys) and the three column families hold the same key set
(`save_rows` always writes all three for a row — the spec's row-existence
invariant). -/
def StoreWf (s : StoreState) : Prop :=
  List.Pairwise pairKeyLt s.default_cf ∧ List.Pairwise pairKeyLt s.ports_cf ∧
    List.Pairwise pairKeyLt s.services_cf ∧
    s.default_cf.map Prod.fst = s.ports_cf.map Prod.fst ∧
    s.default_cf.map Prod.fst = s.services_cf.map Prod.fst

/-- IP addresses, abstract (only equality is used by the modelled code). -/
abbrev Ip := Nat

/-- `pnet` TCP flag bit for SYN. -/
def TcpFlags.SYN : Nat := 2

/-- `pnet` TCP flag bit for ACK. -/
def TcpFlags.ACK : Nat := 16

/-- One TCP packet as seen by the listener thread of `tcp_scan`: the source
address reported by the iterator, the TCP flags, and the TCP source port
(a `u16`). -/
structure RecvPacket where
  addr : Ip
  flags : Nat
  srcPort : Nat
deriving DecidableEq

/-- `ScanResult` from the port-scan module, as consumed by `tcp_scan`'s
callers: target ip and its open-port list. -/
structure ScanResult where
  ip : Ip
  open_ports : List Int
deriving DecidableEq

/-- The results-map initialization of `tcp_scan` (lines 55-60): every target
is inserted with an empty open-port list. -/
def initResults (targets : List Ip) : Ip → Option (List Int) :=
  fun ip => if ip ∈ targets then some [] else none

/-- One iteration of the listener thread of `tcp_scan` (lines 70-94): a
packet whose flags equal exactly `SYN | ACK` and whose source address has an
entry in the results map appends the packet's TCP source port (as `i32`) to
that entry; every other packet leaves the map unchanged. -/
def listenerStep (m : Ip → Option (List Int)) (p : RecvPacket) :
    Ip → Option (List Int) :=
  if p.flags = TcpFlags.SYN ||| TcpFlags.ACK then
    match m p.addr with
    | some open_ports =>
        fun ip => if ip = p.addr then some (open_ports ++ [(p.srcPort : Int)]) else m ip
    | none => m
  else m

/-- The listener thread over the whole stream of packets it receives before
its timeout. -/
def listenerRun (targets : List Ip) (received : List RecvPacket) :
    Ip → Option (List Int) :=
  received.foldl listenerStep (initResults targets)

/-- Worker for `rustDedup`: `prev` is the last kept element. -/
def rustDedupAux (prev : Int) : List Int → List Int
  | [] => []
  | b :: t => if prev = b then rustDedupAux prev t else b :: rustDedupAux b t

/-- Rust `Vec::dedup()`: remove consecutive duplicates, keeping the first of
each run. -/
def rustDedup : List Int → List Int
  | [] => []
  | a :: t => a :: rustDedupAux a t

/-- Rust `Vec::sort()` on `i32`: sort ascending (stability is irrelevant for
integers under equality). -/
def rustSort (l : List Int) : List Int :=
  List.insertionSort (· ≤ ·) l

/-- `tcp_scan` (lines 24-167), observably: the listener folds over the
packets received within its window starting from the initialized results
map, and the output maps each input target, in input order, to its
accumulated list sorted (`Vec::sort`) and consecutively deduplicated
(`Vec::dedup`).  The sender loop (interface selection, SYN construction,
pacing, progress bar) only influences which packets arrive and is modelled
through the `received` stream; `ports` is the probed port list. -/
def tcp_scan (targets : List Ip) (ports : List Int) (received : List RecvPacket) :
    List ScanResult :=
  let results_map := listenerRun targets received
  targets.map (fun ip =>
    { ip := ip
      open_ports := rustDedup (rustSort ((results_map ip).getD [])) })

/-- Environment assumption for the port scan: every received packet that the
listener would accept (flags exactly `SYN | ACK`, source address among the
targets) is a response to a probe, i.e. its source port is a probed port
truncated to `u16` (the sender sets the destination port with `*port as
u16`). -/
def Responsive (targets : List Ip) (ports : List Int)
    (received : List RecvPacket) : Prop :=
  ∀ p ∈ received, p.flags = TcpFlags.SYN ||| TcpFlags.ACK → p.addr ∈ targets →
    ∃ q ∈ ports, (p.srcPort : Int) = q % 65536

/-- Outcome of one `tx.send_to` attempt in `send_tcp_packet`: success, an
error carrying an OS error code (`e.raw_os_error() == Some code`), or an
error without one. -/
inductive SendOutcome where
  | ok : SendOutcome
  | errOs : Nat → SendOutcome
  | errNoOs : SendOutcome
deriving DecidableEq

/-- Observable events of `send_tcp_packet`: the 500 ms back-off sleep, a
retransmission of the same packet, and the `eprintln!` failure log. -/
inductive SendEvent where
  | backoff500 : SendEvent
  | retransmit : SendEvent
  | logFailure : SendEvent
deriving DecidableEq

/-- `send_tcp_packet` (tcp_scan.rs lines 169-183), as the event trace it
emits given the successive outcomes of its send attempts: success emits
nothing; an error with OS code 105 sleeps 500 ms and retransmits the same
packet (recursing on the remaining outcomes); an error with any other OS
code emits nothing (the `if code == 105` has no else branch); an error
without an OS code is logged.  The outcome list is consumed one entry per
attempt, so an unbounded run of code-105 outcomes yields an unbounded chain
of back-off/retransmit pairs. -/
def send_tcp_packet : List SendOutcome → List SendEvent
  | [] => []
  | SendOutcome.ok :: _ => []
  | SendOutcome.errOs code :: rest =>
      if code = 105 then SendEvent.backoff500 :: SendEvent.retransmit :: send_tcp_packet rest
      else []
  | SendOutcome.errNoOs :: _ => [SendEvent.logFailure]

/-- Events of the ping sender thread (ping_scanner.rs lines 103-139):
registering an identifier-to-host mapping in the shared `requests` table, and
transmitting the echo request for a host with a given identifier. -/
inductive PingEvent where
  | insert : Nat → Ip → PingEvent
  | send : Ip → Nat → PingEvent
deriving DecidableEq

/-- `let identifier: u16 = i as u16` (line 109): the index truncated to
16 bits. -/
def pingId (i : Nat) : Nat :=
  i % 65536

/-- The ping sender thread's event trace starting at index `i0`: for each
host, first the `requests.insert(identifier, host)` under the lock, then the
`send_ping` transmission. -/
def senderTraceFrom (i0 : Nat) : List Ip → List PingEvent
  | [] => []
  | h :: t =>
      PingEvent.insert (pingId i0) h :: PingEvent.send h (pingId i0) ::
        senderTraceFrom (i0 + 1) t

/-- The full sender-thread trace of `ping_scan` over the target list. -/
def senderTrace (hosts : List Ip) : List PingEvent :=
  senderTraceFrom 0 hosts

theorem charDigit_toNat (d : Nat) (h : d < 10) : (Char.ofNat (48 + d)).toNat = 48 + d := by
  interval_cases d <;> decide

theorem isDigit_charDigit (d : Nat) (h : d < 10) : isDigit (Char.ofNat (48 + d)) = true := by
  interval_cases d <;> decide

theorem digitsToNat_append_digit (ds : List Char) (c : Char) :
    digitsToNat (ds ++ [c]) = digitsToNat ds * 10 + (c.toNat - 48) := by
  simp [digitsToNat, List.foldl_append]

theorem natToDigitsAux_digitsToNat :
    ∀ (fuel n : Nat), n ≤ fuel → digitsToNat (natToDigitsAux fuel n) = n := by
  intro fuel
  induction fuel with
  | zero =>
    intro n hn
    have h0 : n = 0 := Nat.le_zero.mp hn
    subst h0
    decide
  | succ fuel ih =>
    intro n hn
    by_cases h : n < 10
    · simp only [natToDigitsAux, if_pos h, digitsToNat, List.foldl_cons, List.foldl_nil]
      rw [charDigit_toNat n h]
      omega
    · simp only [natToDigitsAux, if_neg h]
      rw [digitsToNat_append_digit]
      have hdiv : n / 10 ≤ fuel := by
        have := Nat.div_lt_self (by omega : 0 < n) (by omega : 1 < 10)
        omega
      rw [ih (n / 10) hdiv, charDigit_toNat (n % 10) (Nat.mod_lt n (by omega))]
      omega

theorem natToDigits_digitsToNat (n : Nat) : digitsToNat (natToDigits n) = n :=
  natToDigitsAux_digitsToNat n n (Nat.le_refl n)

theorem natToDigitsAux_all_digits :
    ∀ (fuel n : Nat) (c : Char), c ∈ natToDigitsAux fuel n → isDigit c = true := by
  intro fuel
  induction fuel with
  | zero =>
    intro n c hc
    simp only [natToDigitsAux, List.mem_singleton] at hc
    subst hc
    exact isDigit_charDigit (n % 10) (Nat.mod_lt n (by omega))
  | succ fuel ih =>
    intro n c hc
    by_cases h : n < 10
    · simp only [natToDigitsAux, if_pos h, List.mem_singleton] at hc
      subst hc
      exact isDigit_charDigit n h
    · simp only [natToDigitsAux, if_neg h, List.mem_append, List.mem_singleton] at hc
      rcases hc with hc | hc
      · exact ih (n / 10) c hc
      · subst hc
        exact isDigit_charDigit (n % 10) (Nat.mod_lt n (by omega))

theorem natToDigits_all_digits (n : Nat) (c : Char) (hc : c ∈ natToDigits n) :
    isDigit c = true :=
  natToDigitsAux_all_digits n n c hc

theorem natToDigitsAux_ne_nil (fuel n : Nat) : natToDigitsAux fuel n ≠ [] := by
  cases fuel with
  | zero => simp [natToDigitsAux]
  | succ fuel =>
    by_cases h : n < 10
    · simp [natToDigitsAux, if_pos h]
    · simp [natToDigitsAux, if_neg h]

theorem natToDigits_ne_nil (n : Nat) : natToDigits n ≠ [] :=
  natToDigitsAux_ne_nil n n

theorem isDigit_ne (c : Char) (h : isDigit c = true) : c ≠ '-' ∧ c ≠ '+' ∧ c ≠ ',' := by
  refine ⟨fun hc => ?_, fun hc => ?_, fun hc => ?_⟩ <;>
    (subst hc; exact absurd h (by decide))

theorem isEmpty_false_of_ne_nil {α : Type} (l : List α) (h : l ≠ []) :
    l.isEmpty = false := by
  cases l with
  | nil => exact absurd rfl h
  | cons a t => rfl

theorem i32ToString_ne_nil (n : Int) : i32ToString n ≠ [] := by
  unfold i32ToString
  by_cases h : n < 0
  · rw [if_pos h]; simp
  · rw [if_neg h]; exact natToDigits_ne_nil n.toNat

theorem i32ToString_no_comma (n : Int) (ch : Char) (hc : ch ∈ i32ToString n) :
    ch ≠ ',' := by
  unfold i32ToString at hc
  by_cases h : n < 0
  · rw [if_pos h] at hc
    rcases List.mem_cons.mp hc with rfl | hc'
    · decide
    · exact (isDigit_ne ch (natToDigits_all_digits _ ch hc')).2.2
  · rw [if_neg h] at hc
    exact (isDigit_ne ch (natToDigits_all_digits _ ch hc)).2.2

theorem parseDigits_some (neg : Bool) (ds : RString) (hne : ds ≠ [])
    (hdig : ∀ c ∈ ds, isDigit c = true) (v : Int)
    (hv : (if neg then -(digitsToNat ds : Int) else (digitsToNat ds : Int)) = v)
    (hr : -(2 ^ 31) ≤ v ∧ v < 2 ^ 31) :
    parseDigits neg ds = some v := by
  unfold parseDigits
  rw [isEmpty_false_of_ne_nil ds hne, List.all_eq_true.mpr hdig]
  simp only [Bool.not_true, Bool.or_false, Bool.false_eq_true, if_false]
  rw [hv, if_pos hr]

theorem parse_i32_i32ToString (n : Int) (h : IsI32 n) :
    parse_i32 (i32ToString n) = some n := by
  by_cases hn : n < 0
  · have hds : i32ToString n = '-' :: natToDigits n.natAbs := by
      unfold i32ToString; rw [if_pos hn]
    rw [hds]
    simp only [parse_i32, if_pos rfl]
    apply parseDigits_some true _ (natToDigits_ne_nil _)
      (fun c hc => natToDigits_all_digits _ c hc) n
    · rw [if_pos rfl, natToDigits_digitsToNat]
      omega
    · exact h
  · have hds : i32ToString n = natToDigits n.toNat := by
      unfold i32ToString; rw [if_neg hn]
    cases hd : natToDigits n.toNat with
    | nil => exact absurd hd (natToDigits_ne_nil _)
    | cons d ds =>
      have hdig : ∀ c ∈ d :: ds, isDigit c = true := by
        intro c hc
        exact natToDigits_all_digits n.toNat c (hd ▸ hc)
      have hd1 := isDigit_ne d (hdig d (List.mem_cons_self d ds))
      rw [hds, hd]
      simp only [parse_i32, if_neg hd1.1, if_neg hd1.2.1]
      apply parseDigits_some false _ (by simp) hdig n
      · rw [if_neg (by simp), ← hd, natToDigits_digitsToNat]
        omega
      · exact h

theorem splitOnCharAux_append (c : Char) (p : List Char) :
    ∀ (l acc : List Char), (∀ ch ∈ p, ch ≠ c) →
      splitOnCharAux c (p ++ l) acc = splitOnCharAux c l (p.reverse ++ acc) := by
  induction p with
  | nil => intro l acc _; simp
  | cons x xs ih =>
    intro l acc hp
    have hx : x ≠ c := hp x (List.mem_cons_self x xs)
    simp only [List.cons_append, splitOnCharAux, if_neg hx, List.append_eq]
    rw [ih l (x :: acc) (fun ch hch => hp ch (List.mem_cons_of_mem x hch))]
    congr 1
    simp

theorem splitOnCharAux_joinChar (c : Char) :
    ∀ (ps : List (List Char)) (p : List Char),
      (∀ q ∈ p :: ps, ∀ ch ∈ q, ch ≠ c) →
      splitOnCharAux c (joinChar c (p :: ps)) [] = p :: ps := by
  intro ps
  induction ps with
  | nil =>
    intro p hp
    have h2 := splitOnCharAux_append c p [] [] (hp p (List.mem_cons_self p []))
    simpa [splitOnCharAux, joinChar] using h2
  | cons q qs ih =>
    intro p hp
    simp only [joinChar]
    rw [splitOnCharAux_append c p (c :: joinChar c (q :: qs)) []
      (hp p (List.mem_cons_self p (q :: qs)))]
    simp only [splitOnCharAux, if_pos rfl]
    rw [ih q (fun q' hq' => hp q' (List.mem_cons_of_mem p hq'))]
    simp

theorem joinChar_ne_nil (c : Char) (x : List Char) (xs : List (List Char))
    (hx : x ≠ []) : joinChar c (x :: xs) ≠ [] := by
  cases xs with
  | nil => exact hx
  | cons y t =>
    simp only [joinChar]
    intro hh
    rw [List.append_eq_nil] at hh
    exact hx hh.1

theorem split_nums_join_nums (ns : List Int) (h : ∀ n ∈ ns, IsI32 n) :
    split_nums (join_nums ns ',') ',' = ns := by
  cases ns with
  | nil => simp [split_nums, join_nums, joinChar]
  | cons m ms =>
    have hne : join_nums (m :: ms) ',' ≠ [] := by
      unfold join_nums
      rw [List.map_cons]
      exact joinChar_ne_nil ',' _ _ (i32ToString_ne_nil m)
    unfold split_nums
    rw [if_neg hne]
    unfold join_nums splitOnChar
    rw [List.map_cons,
      splitOnCharAux_joinChar ',' (ms.map i32ToString) (i32ToString m) ?hnc]
    case hnc =>
      intro q hq ch hch
      rcases List.mem_cons.mp hq with rfl | hq'
      · exact i32ToString_no_comma m ch hch
      · rcases List.mem_map.mp hq' with ⟨k, _, rfl⟩
        exact i32ToString_no_comma k ch hch
    rw [← List.map_cons i32ToString m ms, List.map_map]
    have : ∀ x ∈ m :: ms,
        ((fun p => match parse_i32 p with
          | some num => num
          | none => 0) ∘ i32ToString) x = x := by
      intro x hx
      simp only [Function.comp_apply, parse_i32_i32ToString x (h x hx)]
    rw [List.map_congr_left this]
    simp

/-- Claim C9: splitting the comma-join of any list of i32 values recovers
the list; the join of the empty list is the empty string and the split of
the empty string is the empty list (`join_nums` / `split_nums`,
database.rs lines 113-139). -/
theorem join_split_roundtrip (ns : List Int) (h : ∀ n ∈ ns, IsI32 n) :
    split_nums (join_nums ns ',') ',' = ns
    ∧ join_nums [] ',' = [] ∧ split_nums [] ',' = [] :=
  ⟨split_nums_join_nums ns h, by simp [join_nums, joinChar], by simp [split_nums]⟩

/-- Witness for `join_split_roundtrip` at the concrete list `[80, -3]`. -/
theorem join_split_roundtrip_witness :
    split_nums (join_nums [80, -3] ',') ',' = [80, -3]
    ∧ join_nums [] ',' = [] ∧ split_nums [] ',' = [] :=
  join_split_roundtrip [80, -3] (by decide)

theorem strLt_trans : ∀ (s t u : RString),
    strLt s t = true → strLt t u = true → strLt s u = true := by
  intro s
  induction s with
  | nil =>
    intro t u h1 h2
    cases t with
    | nil => simp [strLt] at h1
    | cons b bs =>
      cases u with
      | nil => simp [strLt] at h2
      | cons c cs => simp [strLt]
  | cons a as ih =>
    intro t u h1 h2
    cases t with
    | nil => simp [strLt] at h1
    | cons b bs =>
      cases u with
      | nil => simp [strLt] at h2
      | cons c cs =>
        simp only [strLt, Bool.or_eq_true, Bool.and_eq_true, decide_eq_true_eq] at h1 h2 ⊢
        rcases h1 with h1 | ⟨hab, h1⟩
        · rcases h2 with h2 | ⟨hbc, h2⟩
          · exact Or.inl (lt_trans h1 h2)
          · exact Or.inl (hbc ▸ h1)
        · rcases h2 with h2 | ⟨hbc, h2⟩
          · exact Or.inl (by rw [hab]; exact h2)
          · exact Or.inr ⟨hab.trans hbc, ih bs cs h1 h2⟩

theorem strLt_trichotomy : ∀ (s t : RString),
    strLt s t = true ∨ s = t ∨ strLt t s = true := by
  intro s
  induction s with
  | nil =>
    intro t
    cases t with
    | nil => exact Or.inr (Or.inl rfl)
    | cons b bs => exact Or.inl (by simp [strLt])
  | cons a as ih =>
    intro t
    cases t with
    | nil => exact Or.inr (Or.inr (by simp [strLt]))
    | cons b bs =>
      rcases lt_trichotomy a b with hab | hab | hab
      · exact Or.inl (by simp [strLt, hab])
      · rcases ih bs with h | h | h
        · exact Or.inl (by simp [strLt, hab, h])
        · exact Or.inr (Or.inl (by rw [hab, h]))
        · refine Or.inr (Or.inr ?_)
          simp only [strLt, Bool.or_eq_true, Bool.and_eq_true, decide_eq_true_eq]
          exact Or.inr ⟨hab.symm, h⟩
      · exact Or.inr (Or.inr (by simp [strLt, hab]))

theorem mem_putSorted : ∀ (cf : ColumnFamily) (k v : RString) (x : RString × RString),
    x ∈ putSorted k v cf → x = (k, v) ∨ x ∈ cf := by
  intro cf k v
  induction cf with
  | nil =>
    intro x hx
    simp only [putSorted, List.mem_singleton] at hx
    exact Or.inl hx
  | cons hd tl ih =>
    intro x hx
    obtain ⟨k', v'⟩ := hd
    simp only [putSorted] at hx
    by_cases h1 : strLt k k'
    · rw [if_pos h1] at hx
      rcases List.mem_cons.mp hx with h | h
      · exact Or.inl h
      · exact Or.inr h
    · rw [if_neg h1] at hx
      by_cases h2 : k = k'
      · rw [if_pos h2] at hx
        rcases List.mem_cons.mp hx with h | h
        · exact Or.inl h
        · exact Or.inr (List.mem_cons_of_mem _ h)
      · rw [if_neg h2] at hx
        rcases List.mem_cons.mp hx with h | h
        · exact Or.inr (h ▸ List.mem_cons_self _ _)
        · rcases ih x h with h' | h'
          · exact Or.inl h'
          · exact Or.inr (List.mem_cons_of_mem _ h')

theorem pairwise_putSorted (k v : RString) :
    ∀ (cf : ColumnFamily), List.Pairwise pairKeyLt cf →
      List.Pairwise pairKeyLt (putSorted k v cf) := by
  intro cf
  induction cf with
  | nil =>
    intro _
    simp [putSorted]
  | cons hd tl ih =>
    intro hp
    obtain ⟨k', v'⟩ := hd
    rcases List.pairwise_cons.mp hp with ⟨hhd, htl⟩
    simp only [putSorted]
    by_cases h1 : strLt k k'
    · rw [if_pos h1]
      refine List.pairwise_cons.mpr ⟨?_, hp⟩
      intro y hy
      rcases List.mem_cons.mp hy with rfl | hy'
      · exact h1
      · exact strLt_trans k k' y.1 h1 (hhd y hy')
    · rw [if_neg h1]
      by_cases h2 : k = k'
      · rw [if_pos h2]
        refine List.pairwise_cons.mpr ⟨?_, htl⟩
        intro y hy
        show strLt k y.1 = true
        rw [h2]
        exact hhd y hy
      · rw [if_neg h2]
        refine List.pairwise_cons.mpr ⟨?_, ih htl⟩
        intro y hy
        rcases mem_putSorted tl k v y hy with rfl | hy'
        · show strLt k' k = true
          rcases strLt_trichotomy k' k with h | h | h
          · exact h
          · exact absurd h.symm h2
          · exact absurd h h1
        · exact hhd y hy'

theorem map_fst_putSorted :
    ∀ (cf₁ cf₂ : ColumnFamily) (k v₁ v₂ : RString),
      cf₁.map Prod.fst = cf₂.map Prod.fst →
      (putSorted k v₁ cf₁).map Prod.fst = (putSorted k v₂ cf₂).map Prod.fst := by
  intro cf₁
  induction cf₁ with
  | nil =>
    intro cf₂ k v₁ v₂ h
    cases cf₂ with
    | nil => rfl
    | cons b t => simp at h
  | cons a t₁ ih =>
    intro cf₂ k v₁ v₂ h
    cases cf₂ with
    | nil => simp at h
    | cons b t₂ =>
      obtain ⟨a1, a2⟩ := a
      obtain ⟨b1, b2⟩ := b
      simp only [List.map_cons, List.cons.injEq] at h
      obtain ⟨h1, h2⟩ := h
      subst h1
      simp only [putSorted]
      by_cases hc1 : strLt k a1
      · rw [if_pos hc1, if_pos hc1]
        simp [h2]
      · rw [if_neg hc1, if_neg hc1]
        by_cases hc2 : k = a1
        · rw [if_pos hc2, if_pos hc2]
          simp [h2]
        · rw [if_neg hc2, if_neg hc2]
          simp [ih t₂ k v₁ v₂ h2]

theorem cfGet_putSorted_self : ∀ (cf : ColumnFamily) (k v : RString),
    cfGet (putSorted k v cf) k = some v := by
  intro cf
  induction cf with
  | nil =>
    intro k v
    simp [putSorted, cfGet]
  | cons hd tl ih =>
    intro k v
    obtain ⟨k', v'⟩ := hd
    simp only [putSorted]
    by_cases h1 : strLt k k'
    · rw [if_pos h1]
      simp [cfGet]
    · rw [if_neg h1]
      by_cases h2 : k = k'
      · rw [if_pos h2]
        simp [cfGet]
      · rw [if_neg h2]
        simp only [cfGet, if_neg h2]
        exact ih k v

theorem cfGet_putSorted_ne : ∀ (cf : ColumnFamily) (k v k'' : RString),
    k'' ≠ k → cfGet (putSorted k v cf) k'' = cfGet cf k'' := by
  intro cf
  induction cf with
  | nil =>
    intro k v k'' h
    simp [putSorted, cfGet, h]
  | cons hd tl ih =>
    intro k v k'' h
    obtain ⟨k', v'⟩ := hd
    simp only [putSorted]
    by_cases h1 : strLt k k'
    · rw [if_pos h1]
      simp only [cfGet, if_neg h]
    · rw [if_neg h1]
      by_cases h2 : k = k'
      · rw [if_pos h2]
        have h3 : ¬(k'' = k') := by rw [← h2]; exact h
        simp only [cfGet, if_neg h, if_neg h3]
      · rw [if_neg h2]
        by_cases h4 : k'' = k'
        · simp only [cfGet, if_pos h4]
        · simp only [cfGet, if_neg h4]
          exact ih k v k'' h

theorem cfGet_isSome_iff : ∀ (cf : ColumnFamily) (k : RString),
    (cfGet cf k).isSome = true ↔ k ∈ cf.map Prod.fst := by
  intro cf
  induction cf with
  | nil => intro k; simp [cfGet]
  | cons hd tl ih =>
    intro k
    obtain ⟨k', v'⟩ := hd
    by_cases h : k = k'
    · simp [cfGet, h]
    · simp only [cfGet, if_neg h, List.map_cons, List.mem_cons]
      rw [ih k]
      constructor
      · exact fun hh => Or.inr hh
      · rintro (hh | hh)
        · exact absurd hh h
        · exact hh

theorem storeWf_empty : StoreWf emptyStore := by
  refine ⟨?_, ?_, ?_, rfl, rfl⟩ <;> exact List.Pairwise.nil

theorem storeWf_putRow (s : StoreState) (row : DatabaseResult) (h : StoreWf s) :
    StoreWf (putRow s row) := by
  obtain ⟨h1, h2, h3, h4, h5⟩ := h
  exact ⟨pairwise_putSorted _ _ _ h1, pairwise_putSorted _ _ _ h2,
    pairwise_putSorted _ _ _ h3, map_fst_putSorted _ _ _ _ _ h4,
    map_fst_putSorted _ _ _ _ _ h5⟩

theorem storeWf_save_rows (s : StoreState) (rows : List DatabaseResult)
    (h : StoreWf s) : StoreWf (save_rows s rows) := by
  induction rows generalizing s with
  | nil => exact h
  | cons r rs ih => exact ih (putRow s r) (storeWf_putRow s r h)

theorem fetch_row_id (s : StoreState) (k : RString) (r : DatabaseResult)
    (h : fetch_row s k = some r) : r.id = k := by
  unfold fetch_row at h
  cases hc : cfGet s.default_cf k with
  | none => rw [hc] at h; exact absurd h (by simp)
  | some w =>
    rw [hc] at h
    simp only [Option.some.injEq] at h
    rw [← h]

theorem fetch_row_of_isSome (s : StoreState) (k : RString)
    (h : (cfGet s.default_cf k).isSome = true) :
    fetch_row s k = some
      { id := k
        ports := split_nums (row_to_string s.ports_cf k) ','
        services := row_to_string s.services_cf k } := by
  unfold fetch_row
  cases hc : cfGet s.default_cf k with
  | none => rw [hc] at h; simp at h
  | some w => rfl

theorem fetch_row_putRow_ne (s : StoreState) (row : DatabaseResult) (k : RString)
    (h : k ≠ row.id) : fetch_row (putRow s row) k = fetch_row s k := by
  unfold fetch_row putRow row_to_string
  simp only
  rw [cfGet_putSorted_ne s.default_cf row.id [] k h,
    cfGet_putSorted_ne s.ports_cf row.id row.ports_to_string k h,
    cfGet_putSorted_ne s.services_cf row.id row.services k h]

theorem save_rows_append_singleton (s : StoreState) (rs : List DatabaseResult)
    (x : DatabaseResult) :
    save_rows s (rs ++ [x]) = putRow (save_rows s rs) x := by
  unfold save_rows
  rw [List.foldl_append]
  rfl

theorem get_row_by_host_save_rows_lastRow :
    ∀ (rows : List DatabaseResult) (s : StoreState) (k : RString),
      get_row_by_host (save_rows s rows) k =
        match (rows.filter (fun x => decide (x.id = k))).getLast? with
        | some row =>
            some { id := k
                   ports := split_nums row.ports_to_string ','
                   services := row.services }
        | none => get_row_by_host s k := by
  intro rows
  induction rows using List.reverseRecOn with
  | nil => intro s k; rfl
  | append_singleton rs x ih =>
    intro s k
    rw [save_rows_append_singleton, List.filter_append]
    by_cases hx : x.id = k
    · have hfx : List.filter (fun y => decide (y.id = k)) [x] = [x] := by
        simp [List.filter, hx]
      rw [hfx, List.getLast?_concat]
      unfold get_row_by_host
      have hsome : (cfGet (putRow (save_rows s rs) x).default_cf x.id).isSome = true := by
        unfold putRow
        simp only
        rw [cfGet_putSorted_self]
        rfl
      rw [← hx]
      rw [fetch_row_of_isSome _ _ hsome]
      unfold putRow row_to_string
      simp only
      rw [cfGet_putSorted_self, cfGet_putSorted_self]
      rfl
    · have hfx : List.filter (fun y => decide (y.id = k)) [x] = [] := by
        simp [List.filter, hx]
      rw [hfx, List.append_nil]
      unfold get_row_by_host
      rw [fetch_row_putRow_ne _ x k (fun hh => hx hh.symm)]
      exact ih s k

/-- Claim C2 (amended): after `save_rows(rs)`, for every record `r` in `rs`
(taking the last occurrence when a host_id repeats), `get_row_by_host(r.id)`
returns a record whose ports equal `r.ports` exactly as given — in stored
order, without sorting or deduplication — and whose services equal
`r.services`.  (The claim's `sort(dedup(r.ports))` does not hold:
`save_rows` stores the comma-join of the ports as given and `fetch_row`
splits it back; see the counterexample.) -/
theorem save_rows_fetch_last (st : StoreState) (rs : List DatabaseResult)
    (r : DatabaseResult)
    (hlast : (rs.filter (fun x => decide (x.id = r.id))).getLast? = some r)
    (hports : ∀ p ∈ r.ports, IsI32 p) :
    get_row_by_host (save_rows st rs) r.id = some r := by
  rw [get_row_by_host_save_rows_lastRow rs st r.id, hlast]
  have hrt : split_nums r.ports_to_string ',' = r.ports := by
    unfold DatabaseResult.ports_to_string
    exact split_nums_join_nums r.ports hports
  simp only [hrt]

/-- Counterexample to claim C2 as stated: saving the single record
`{id:"1.1.1.1", ports:[80,443,80], services:"http"}` into an empty store and
reading it back yields ports `[80,443,80]`, not
`sort(dedup([80,443,80])) = [80,443]`. -/
theorem save_rows_sort_dedup_counterexample :
    (get_row_by_host
        (save_rows emptyStore
          [{ id := ("1.1.1.1").data, ports := [80, 443, 80], services := ("http").data }])
        (("1.1.1.1").data)).map DatabaseResult.ports ≠ some [(80 : Int), 443] := by
  decide

/-- Witness for `save_rows_fetch_last`: two rows share the host id `"h"`;
the read-back equals the later row, ports kept in stored order. -/
theorem save_rows_fetch_last_witness :
    get_row_by_host
        (save_rows emptyStore
          [{ id := ("h").data, ports := [1], services := [] },
           { id := ("h").data, ports := [80, 443, 80], services := ("http").data }])
        (("h").data)
      = some { id := ("h").data, ports := [80, 443, 80], services := ("http").data } :=
  save_rows_fetch_last emptyStore
    [{ id := ("h").data, ports := [1], services := [] },
     { id := ("h").data, ports := [80, 443, 80], services := ("http").data }]
    { id := ("h").data, ports := [80, 443, 80], services := ("http").data }
    (by decide) (by decide)

/-- Claim C6: `save_rows` followed by `get_row_by_host` preserves the ports
sequence exactly as given, without sorting or deduplication: saving
`{id:"1.1.1.1", ports:[80,443,80], services:"http"}` then reading key
`"1.1.1.1"` yields that same record with ports `[80,443,80]` in stored
order. -/
theorem store_preserves_ports_order :
    get_row_by_host
        (save_rows emptyStore
          [{ id := ("1.1.1.1").data, ports := [80, 443, 80], services := ("http").data }])
        (("1.1.1.1").data)
      = some { id := ("1.1.1.1").data, ports := [80, 443, 80], services := ("http").data } := by
  decide

/-- Claim C1 (code evaluated at the failing input): encoding the record
`{id:"1.1.1.1", ports:[80], services:"http"}` and decoding it back returns
the record with services `""` — the `if 1 > 1` guard in
`DatabaseResult::decode` discards `values[1]`, so any record with non-empty
services fails the round trip the spec states. -/
theorem decode_encode_drops_services :
    DatabaseResult.decode ("1.1.1.1").data
        (DatabaseResult.encode
          { id := ("1.1.1.1").data, ports := [80], services := ("http").data })
      = DecodeResult.ok { id := ("1.1.1.1").data, ports := [80], services := [] }
    ∧ (("http").data : RString) ≠ [] := by
  decide

/-- Claim C3 (code evaluated at the failing input): `decode` does return
`None` for a buffer shorter than 4 bytes and for a length prefix that
overruns the buffer, but a well-formed 8-byte buffer whose field count is 0
makes the source evaluate `values[0]` on an empty vector — a panic, not
`None`, contradicting the spec's "returned as absent; never raised". -/
theorem decode_crashes_on_zero_field_count :
    DatabaseResult.decode ("a").data [0, 0, 0] = DecodeResult.absent
    ∧ DatabaseResult.decode ("a").data [1, 0, 0, 0, 255, 0, 0, 0, 97] = DecodeResult.absent
    ∧ DatabaseResult.decode ("a").data (List.replicate 8 0) = DecodeResult.crash := by
  decide

theorem containsSubstr_empty_needle (v : RString) : containsSubstr v [] = true := by
  cases v with
  | nil => rfl
  | cons c t => rfl

theorem search_eq_filter_map (s : StoreState) (sub : RString) :
    ∀ (cf : ColumnFamily),
      (∀ kv ∈ cf, (cfGet s.default_cf kv.1).isSome = true) →
      search_substring_in_column s cf sub =
        (cf.filter (fun kv => containsSubstr kv.2 sub)).map
          (fun kv =>
            { id := kv.1
              ports := split_nums (row_to_string s.ports_cf kv.1) ','
              services := row_to_string s.services_cf kv.1 }) := by
  intro cf
  induction cf with
  | nil => intro _; rfl
  | cons kv t ih =>
    intro hall
    have htail : ∀ kv' ∈ t, (cfGet s.default_cf kv'.1).isSome = true :=
      fun kv' h => hall kv' (List.mem_cons_of_mem kv h)
    unfold search_substring_in_column at ih ⊢
    rw [List.filterMap_cons]
    by_cases hc : containsSubstr kv.2 sub
    · rw [if_pos hc, fetch_row_of_isSome s kv.1 (hall kv (List.mem_cons_self kv t))]
      rw [ih htail]
      simp [List.filter_cons, hc]
    · rw [if_neg hc]
      rw [ih htail]
      simp only [Bool.not_eq_true] at hc
      simp [List.filter_cons, hc]

/-- Claim C4: over a well-formed store (each column family strictly sorted
by key and all three column families sharing one key set — the invariant
`save_rows` establishes, see `storeWf_save_rows`), `get_rows_by_port s`
returns exactly those host records whose stored comma-joined port string
contains `s` as a substring, resolved via the host-lookup path `fetch_row`,
listed in ascending lexicographic key order; the empty substring matches
every row. -/
theorem get_rows_by_port_spec (st : StoreState) (sub : RString) (hwf : StoreWf st) :
    (∀ r : DatabaseResult, r ∈ get_rows_by_port st sub ↔
        ∃ v : RString, (r.id, v) ∈ st.ports_cf ∧ containsSubstr v sub = true ∧
          fetch_row st r.id = some r)
    ∧ List.Pairwise (fun a b => strLt a b = true)
        ((get_rows_by_port st sub).map DatabaseResult.id)
    ∧ (get_rows_by_port st []).map DatabaseResult.id = st.ports_cf.map Prod.fst := by
  obtain ⟨hd, hp, hs, hdp, hds⟩ := hwf
  have hall : ∀ kv ∈ st.ports_cf, (cfGet st.default_cf kv.1).isSome = true := by
    intro kv hkv
    rw [cfGet_isSome_iff, hdp]
    exact List.mem_map_of_mem Prod.fst hkv
  refine ⟨?_, ?_, ?_⟩
  · intro r
    constructor
    · intro hr
      unfold get_rows_by_port search_substring_in_column at hr
      rcases List.mem_filterMap.mp hr with ⟨kv, hkv, hf⟩
      by_cases hc : containsSubstr kv.2 sub
      · rw [if_pos hc] at hf
        have hid := fetch_row_id st kv.1 r hf
        refine ⟨kv.2, ?_, hc, ?_⟩
        · rw [hid]
          exact hkv
        · rw [hid]
          exact hf
      · rw [if_neg hc] at hf
        exact absurd hf (by simp)
    · rintro ⟨v, hmem, hc, hf⟩
      unfold get_rows_by_port search_substring_in_column
      refine List.mem_filterMap.mpr ⟨(r.id, v), hmem, ?_⟩
      rw [if_pos hc]
      exact hf
  · unfold get_rows_by_port
    rw [search_eq_filter_map st sub st.ports_cf hall]
    refine List.pairwise_map.mpr (List.pairwise_map.mpr ?_)
    exact hp.filter (fun kv => containsSubstr kv.2 sub)
  · unfold get_rows_by_port
    rw [search_eq_filter_map st [] st.ports_cf hall]
    rw [List.filter_eq_self.mpr (fun kv _ => containsSubstr_empty_needle kv.2)]
    rw [List.map_map]
    rfl

/-- Witness for `get_rows_by_port_spec`: on the store holding hosts `"a"`
and `"b"`, the empty-substring scan lists every row in key order. -/
theorem get_rows_by_port_spec_witness :
    (get_rows_by_port
        (save_rows emptyStore
          [{ id := ("a").data, ports := [22, 80], services := [] },
           { id := ("b").data, ports := [443], services := [] }]) []).map DatabaseResult.id
      = (save_rows emptyStore
          [{ id := ("a").data, ports := [22, 80], services := [] },
           { id := ("b").data, ports := [443], services := [] }]).ports_cf.map Prod.fst :=
  (get_rows_by_port_spec
      (save_rows emptyStore
        [{ id := ("a").data, ports := [22, 80], services := [] },
         { id := ("b").data, ports := [443], services := [] }]) []
      (storeWf_save_rows emptyStore
        [{ id := ("a").data, ports := [22, 80], services := [] },
         { id := ("b").data, ports := [443], services := [] }] storeWf_empty)).2.2

theorem chain_rustDedupAux :
    ∀ (l : List Int) (prev : Int), List.Pairwise (· ≤ ·) (prev :: l) →
      List.Chain' (· < ·) (prev :: rustDedupAux prev l) := by
  intro l
  induction l with
  | nil => intro prev _; simp [rustDedupAux]
  | cons b t ih =>
    intro prev hp
    rcases List.pairwise_cons.mp hp with ⟨hhd, htl⟩
    by_cases hb : prev = b
    · simp only [rustDedupAux, if_pos hb]
      apply ih prev
      refine List.pairwise_cons.mpr ⟨?_, (List.pairwise_cons.mp htl).2⟩
      intro y hy
      exact hhd y (List.mem_cons_of_mem b hy)
    · simp only [rustDedupAux, if_neg hb]
      have h1 : prev < b := lt_of_le_of_ne (hhd b (List.mem_cons_self b t)) hb
      exact List.chain'_cons.mpr ⟨h1, ih b htl⟩

theorem sorted_nodup_dedup_sort (l : List Int) :
    List.Sorted (· ≤ ·) (rustDedup (rustSort l)) ∧ (rustDedup (rustSort l)).Nodup := by
  have hs : List.Sorted (· ≤ ·) (rustSort l) := List.sorted_insertionSort (· ≤ ·) l
  cases hm : rustSort l with
  | nil => simp [rustDedup]
  | cons a t =>
    rw [hm] at hs
    have hchain := chain_rustDedupAux t a hs
    have hpw : List.Pairwise (· < ·) (a :: rustDedupAux a t) :=
      List.chain'_iff_pairwise.mp hchain
    simp only [rustDedup]
    exact ⟨hpw.imp (fun h => le_of_lt h), hpw.imp (fun h => ne_of_lt h)⟩

theorem initResults_isSome (targets : List Ip) :
    ∀ ip, ((initResults targets) ip).isSome = true ↔ ip ∈ targets := by
  intro ip
  unfold initResults
  by_cases h : ip ∈ targets <;> simp [h]

theorem listenerStep_isSome (targets : List Ip) (m : Ip → Option (List Int))
    (p : RecvPacket) (h : ∀ ip, (m ip).isSome = true ↔ ip ∈ targets) :
    ∀ ip, ((listenerStep m p) ip).isSome = true ↔ ip ∈ targets := by
  intro ip
  unfold listenerStep
  by_cases hf : p.flags = TcpFlags.SYN ||| TcpFlags.ACK
  · rw [if_pos hf]
    cases hm : m p.addr with
    | none => exact h ip
    | some l =>
      by_cases hip : ip = p.addr
      · subst hip
        have hmem : p.addr ∈ targets := (h p.addr).mp (by rw [hm]; rfl)
        simp [hmem]
      · simp only [if_neg hip]
        exact h ip
  · rw [if_neg hf]
    exact h ip

theorem listenerFold_isSome (targets : List Ip) :
    ∀ (pkts : List RecvPacket) (m : Ip → Option (List Int)),
      (∀ ip, (m ip).isSome = true ↔ ip ∈ targets) →
      ∀ ip, ((pkts.foldl listenerStep m) ip).isSome = true ↔ ip ∈ targets := by
  intro pkts
  induction pkts with
  | nil => intro m h ip; exact h ip
  | cons p rest ih =>
    intro m h ip
    exact ih (listenerStep m p) (listenerStep_isSome targets m p h) ip

theorem listenerRun_isSome (targets : List Ip) (pkts : List RecvPacket) :
    ∀ ip, ((listenerRun targets pkts) ip).isSome = true ↔ ip ∈ targets :=
  listenerFold_isSome targets pkts (initResults targets) (initResults_isSome targets)

theorem listenerRun_no_accepted (targets : List Ip) :
    ∀ (received : List RecvPacket),
      (∀ p ∈ received, p.flags = TcpFlags.SYN ||| TcpFlags.ACK → p.addr ∉ targets) →
      listenerRun targets received = initResults targets := by
  intro received
  induction received with
  | nil => intro _; rfl
  | cons p rest ih =>
    intro h
    have hstep : listenerStep (initResults targets) p = initResults targets := by
      unfold listenerStep
      by_cases hf : p.flags = TcpFlags.SYN ||| TcpFlags.ACK
      · rw [if_pos hf]
        have hnone : initResults targets p.addr = none := by
          unfold initResults
          rw [if_neg (h p (List.mem_cons_self p rest) hf)]
        rw [hnone]
      · rw [if_neg hf]
    unfold listenerRun at ih ⊢
    rw [List.foldl_cons, hstep]
    exact ih (fun q hq => h q (List.mem_cons_of_mem p hq))

/-- Claim C5: `tcp_scan` emits exactly one `ScanResult` per input target, in
input order; every output's `open_ports` is sorted ascending with no
duplicates; empty `targets` yield empty output; and when the probed `ports`
list is empty — so that, under the `Responsive` environment assumption, no
received packet is a valid response — every target yields empty
`open_ports`. -/
theorem tcp_scan_output_shape (targets : List Ip) (ports : List Int)
    (received : List RecvPacket) (hresp : Responsive targets ports received) :
    (tcp_scan targets ports received).map ScanResult.ip = targets
    ∧ (∀ r ∈ tcp_scan targets ports received,
        List.Sorted (· ≤ ·) r.open_ports ∧ r.open_ports.Nodup)
    ∧ (targets = [] → tcp_scan targets ports received = [])
    ∧ (ports = [] → ∀ r ∈ tcp_scan targets ports received, r.open_ports = []) := by
  refine ⟨?_, ?_, ?_, ?_⟩
  · simp [tcp_scan, Function.comp_def]
  · intro r hr
    rcases List.mem_map.mp hr with ⟨ip, _, rfl⟩
    exact sorted_nodup_dedup_sort _
  · intro h
    subst h
    rfl
  · intro hports r hr
    subst hports
    have hno : ∀ p ∈ received, p.flags = TcpFlags.SYN ||| TcpFlags.ACK →
        p.addr ∉ targets := by
      intro p hp hf haddr
      rcases hresp p hp hf haddr with ⟨q, hq, _⟩
      exact absurd hq (List.not_mem_nil q)
    rcases List.mem_map.mp hr with ⟨ip, hip, rfl⟩
    simp only [listenerRun_no_accepted targets received hno]
    unfold initResults
    rw [if_pos hip]
    rfl

/-- Witness for `tcp_scan_output_shape`: one target, no probed ports, one
stray packet from a non-target address. -/
theorem tcp_scan_output_shape_witness :
    (tcp_scan [5] ([] : List Int) [{ addr := 7, flags := 18, srcPort := 80 }]).map
        ScanResult.ip = [5] :=
  (tcp_scan_output_shape [5] [] [{ addr := 7, flags := 18, srcPort := 80 }]
    (by
      rintro p hp hf ha
      simp only [List.mem_singleton] at hp
      subst hp
      simp at ha)).1

/-- Claim C10: throughout `tcp_scan`, the shared results map has exactly the
input targets as keys; appending one more received packet changes nothing
when the packet's source address is not a target (it is discarded), and any
change the packet does make is an append of the packet's source port to the
entry of its own source address, possible only when the flags equal exactly
`SYN | ACK`. -/
theorem tcp_results_map_invariant (targets : List Ip) (pkts : List RecvPacket)
    (p : RecvPacket) (ip : Ip) :
    ((listenerRun targets pkts ip).isSome = true ↔ ip ∈ targets)
    ∧ (p.addr ∉ targets →
        listenerRun targets (pkts ++ [p]) = listenerRun targets pkts)
    ∧ (listenerRun targets (pkts ++ [p]) ip ≠ listenerRun targets pkts ip →
        p.flags = TcpFlags.SYN ||| TcpFlags.ACK ∧ p.addr = ip ∧ ip ∈ targets ∧
          listenerRun targets (pkts ++ [p]) ip =
            some (((listenerRun targets pkts ip).getD []) ++ [(p.srcPort : Int)])) := by
  have happ : listenerRun targets (pkts ++ [p])
      = listenerStep (listenerRun targets pkts) p := by
    unfold listenerRun
    rw [List.foldl_append]
    rfl
  refine ⟨listenerRun_isSome targets pkts ip, ?_, ?_⟩
  · intro hp
    rw [happ]
    unfold listenerStep
    by_cases hf : p.flags = TcpFlags.SYN ||| TcpFlags.ACK
    · rw [if_pos hf]
      have hnone : listenerRun targets pkts p.addr = none := by
        cases hm : listenerRun targets pkts p.addr with
        | none => rfl
        | some l =>
          exact absurd ((listenerRun_isSome targets pkts p.addr).mp (by rw [hm]; rfl)) hp
      rw [hnone]
    · rw [if_neg hf]
  · intro hne
    by_cases hf : p.flags = TcpFlags.SYN ||| TcpFlags.ACK
    · cases hm : listenerRun targets pkts p.addr with
      | none =>
        exfalso
        apply hne
        rw [happ]
        unfold listenerStep
        rw [if_pos hf, hm]
      | some l =>
        by_cases hip : ip = p.addr
        · subst hip
          refine ⟨hf, rfl, (listenerRun_isSome targets pkts p.addr).mp (by rw [hm]; rfl), ?_⟩
          rw [happ]
          unfold listenerStep
          rw [if_pos hf, hm]
          simp [hm]
        · exfalso
          apply hne
          rw [happ]
          unfold listenerStep
          rw [if_pos hf, hm]
          simp [hip]
    · exfalso
      apply hne
      rw [happ]
      unfold listenerStep
      rw [if_neg hf]

/-- Witness for `tcp_results_map_invariant`: a SYN+ACK packet from target 1
with source port 80 appends 80 to target 1's entry. -/
theorem tcp_results_map_invariant_witness :
    listenerRun [1] ([] ++ [{ addr := 1, flags := 18, srcPort := 80 }]) 1 =
      some (((listenerRun [1] [] 1).getD []) ++
        [(({ addr := 1, flags := 18, srcPort := 80 } : RecvPacket).srcPort : Int)]) :=
  ((tcp_results_map_invariant [1] [] { addr := 1, flags := 18, srcPort := 80 } 1).2.2
    (by decide)).2.2.2

/-- Claim C7 (amended): in `send_tcp_packet`, a send failing with OS error
code 105 backs off 500 ms and retransmits the same packet with no retry cap
(the whole run of code-105 outcomes is retried, however long); a send
failure with any *other* OS error code is skipped silently — it is *not*
logged, because the `if code == 105` has no else branch; only a failure
without an OS error code is logged (and skipped).  (The claim's "every send
failure with any other error is logged" fails; see the counterexample.) -/
theorem send_tcp_packet_error_handling (c : Nat) (rest : List SendOutcome)
    (n : Nat) (hc : c ≠ 105) :
    send_tcp_packet (SendOutcome.errOs 105 :: rest)
        = SendEvent.backoff500 :: SendEvent.retransmit :: send_tcp_packet rest
    ∧ send_tcp_packet (SendOutcome.errOs c :: rest) = []
    ∧ send_tcp_packet (SendOutcome.errNoOs :: rest) = [SendEvent.logFailure]
    ∧ send_tcp_packet (SendOutcome.ok :: rest) = []
    ∧ send_tcp_packet (List.replicate n (SendOutcome.errOs 105) ++ rest)
        = (List.replicate n [SendEvent.backoff500, SendEvent.retransmit]).flatten
            ++ send_tcp_packet rest := by
  refine ⟨by simp [send_tcp_packet], by simp [send_tcp_packet, hc], rfl, rfl, ?_⟩
  induction n with
  | zero => simp
  | succ k ih =>
    have hstep : send_tcp_packet (SendOutcome.errOs 105 ::
        (List.replicate k (SendOutcome.errOs 105) ++ rest))
        = SendEvent.backoff500 :: SendEvent.retransmit ::
            send_tcp_packet (List.replicate k (SendOutcome.errOs 105) ++ rest) := by
      simp [send_tcp_packet]
    rw [List.replicate_succ, List.cons_append, hstep, ih, List.replicate_succ,
      List.flatten_cons]
    simp

/-- Counterexample to claim C7 as stated: a send failure with OS error code
13 (not 105) produces no log event — the source's `eprintln!` is only
reached when the error has no OS error code. -/
theorem send_tcp_packet_counterexample :
    SendEvent.logFailure ∉ send_tcp_packet [SendOutcome.errOs 13] := by
  decide

/-- Witness for `send_tcp_packet_error_handling` at OS error code 13. -/
theorem send_tcp_packet_error_handling_witness :
    send_tcp_packet [SendOutcome.errOs 13] = [] :=
  (send_tcp_packet_error_handling 13 [] 0 (by decide)).2.1

theorem senderTraceFrom_getElem :
    ∀ (hosts : List Ip) (i0 i : Nat) (hv : Ip), hosts[i]? = some hv →
      (senderTraceFrom i0 hosts)[2 * i]? = some (PingEvent.insert (pingId (i0 + i)) hv)
      ∧ (senderTraceFrom i0 hosts)[2 * i + 1]? = some (PingEvent.send hv (pingId (i0 + i))) := by
  intro hosts
  induction hosts with
  | nil => intro i0 i hv h; simp at h
  | cons hd t ih =>
    intro i0 i hv h
    cases i with
    | zero =>
      simp only [List.getElem?_cons_zero, Option.some.injEq] at h
      subst h
      constructor
      · simp [senderTraceFrom]
      · simp [senderTraceFrom]
    | succ j =>
      have h' : t[j]? = some hv := by simpa using h
      have hj := ih (i0 + 1) j hv h'
      have e0 : i0 + (j + 1) = (i0 + 1) + j := by omega
      constructor
      · have e : 2 * (j + 1) = (2 * j) + 1 + 1 := by omega
        rw [e]
        simp only [senderTraceFrom, List.getElem?_cons_succ]
        rw [e0]
        exact hj.1
      · have e : 2 * (j + 1) + 1 = (2 * j + 1) + 1 + 1 := by omega
        rw [e]
        simp only [senderTraceFrom, List.getElem?_cons_succ]
        rw [e0]
        exact hj.2

/-- Claim C8: when the target list has at most 65536 entries, every target's
16-bit identifier (`i as u16`, its index) is distinct, and in the sender
thread's event trace the `requests.insert` of a target's identifier-to-host
mapping occurs at position `2*i`, strictly before that target's transmission
at position `2*i + 1`. -/
theorem ping_identifier_correlation (hosts : List Ip) (hlen : hosts.length ≤ 65536) :
    (∀ i j, i < hosts.length → j < hosts.length → i ≠ j → pingId i ≠ pingId j)
    ∧ (∀ (i : Nat) (hv : Ip), hosts[i]? = some hv →
        (senderTrace hosts)[2 * i]? = some (PingEvent.insert (pingId i) hv)
        ∧ (senderTrace hosts)[2 * i + 1]? = some (PingEvent.send hv (pingId i))) := by
  constructor
  · intro i j hi hj hij
    unfold pingId
    have h1 : i % 65536 = i := Nat.mod_eq_of_lt (by omega)
    have h2 : j % 65536 = j := Nat.mod_eq_of_lt (by omega)
    omega
  · intro i hv h
    have hj := senderTraceFrom_getElem hosts 0 i hv h
    rw [Nat.zero_add] at hj
    exact hj

/-- Witness for `ping_identifier_correlation` on the host list `[3, 4]`. -/
theorem ping_identifier_correlation_witness :
    pingId 0 ≠ pingId 1
    ∧ (senderTrace [3, 4])[2 * 0]? = some (PingEvent.insert (pingId 0) 3) :=
  ⟨(ping_identifier_correlation [3, 4] (by decide)).1 0 1 (by decide) (by decide)
      (by decide),
   ((ping_identifier_correlation [3, 4] (by decide)).2 0 3 (by decide)).1⟩
